import Mathlib

/-!
Shallow embedding of the simple-chatroom server (chat_message.hpp and
chat_server.cpp) and proofs of the specification's claims about it.

Bytes are modelled as natural numbers (the `char` values of the C++ buffers).
`chat_message::data_` is a single 516-byte buffer; the header region
`data_[0..3]` and the body region `data_[4..515]` are disjoint and are
modelled as the two fields `hdr` and `bodyData`.
-/

/-- Size of `chat_message::header_length`. -/
def header_length : Nat := 4

/-- Size of `chat_message::max_body_length`. -/
def max_body_length : Nat := 512

/-- The `chat_message` class: `hdr` models `data_[0..header_length)`,
`bodyData` models `data_[header_length..header_length+max_body_length)`,
and `body_length_` is the stored body length. -/
structure chat_message where
  hdr : List Nat
  bodyData : List Nat
  body_length_ : Nat
deriving DecidableEq

/-- A byte that C's `isspace` accepts in the default locale:
space (32) or one of 9..13 (tab, newline, vertical tab, form feed, carriage return). -/
def isSpaceByte (b : Nat) : Bool := b == 32 || (9 ≤ b && b ≤ 13)

/-- A decimal digit byte, 48 ('0') to 57 ('9'). -/
def isDigitByte (b : Nat) : Bool := 48 ≤ b && b ≤ 57

/-- Value of the maximal leading run of digit bytes, as `atoi` accumulates it. -/
def digitsVal (s : List Nat) : Nat :=
  (s.takeWhile isDigitByte).foldl (fun a b => a * 10 + (b - 48)) 0

/-- C `std::atoi` on a byte string: skip leading whitespace, read an optional
sign, then the leading run of digits (empty run gives 0). The 4-byte headers
of this protocol can never overflow `int`, so overflow is not modelled. -/
def atoi (s : List Nat) : Int :=
  match s.dropWhile isSpaceByte with
  | [] => 0
  | c :: rest =>
    if c = 43 then (digitsVal rest : Int)
    else if c = 45 then -((digitsVal rest : Int))
    else (digitsVal (c :: rest) : Int)

/-- Conversion of a C `int` value to `std::size_t` (64-bit): reduction
modulo 2^64, which sends negative values to huge ones. -/
def sizeT (i : Int) : Nat := (i % (2 ^ 64 : Int)).toNat

/-- Effect of `strncat(header, data_, header_length)` on the empty `header`
buffer: copies at most `header_length` bytes of `data_`, stopping early at a
null byte. -/
def strncatHeader (data : List Nat) : List Nat :=
  (data.take header_length).takeWhile (fun b => b != 0)

/-- The numeric value `decode_header` computes from the header bytes:
`std::atoi` of the null-terminated copy of the first 4 bytes, converted to
`std::size_t` by the assignment to `body_length_`. -/
def parsedHeaderValue (data : List Nat) : Nat := sizeT (atoi (strncatHeader data))

/-- Decimal representation of a nonnegative value, most significant digit
first, as `sprintf` prints it. The fuel argument bounds the digit recursion;
`fuel = n + 1` always suffices since the argument is divided by 10 each step. -/
def decReprAux : Nat → Nat → List Nat
  | 0, _ => []
  | fuel + 1, n => if n < 10 then [48 + n] else decReprAux fuel (n / 10) ++ [48 + n % 10]

/-- Decimal digit bytes of `n`, most significant first. -/
def decRepr (n : Nat) : List Nat := decReprAux (n + 1) n

/-- Bytes `sprintf(header, "%4d", n)` puts in the header buffer for a
nonnegative `n`: the decimal digits right-justified in a field of width 4,
padded on the left with spaces. -/
def sprintf4 (n : Nat) : List Nat :=
  List.replicate (4 - (decRepr n).length) 32 ++ decRepr n

/-- The overloaded setter `chat_message::body_length(std::size_t)`: stores the
new length, then truncates it to `max_body_length` if it exceeds it. -/
def chat_message.body_length_set (m : chat_message) (new_length : Nat) : chat_message :=
  let m' : chat_message := { m with body_length_ := new_length }
  if m'.body_length_ > max_body_length then { m' with body_length_ := max_body_length } else m'

/-- The member `chat_message::decode_header`: parses the header bytes with
`strncat` + `atoi`, stores the value in `body_length_`, and if it exceeds
`max_body_length` resets it to 0 and reports failure. Returns the `bool`
result paired with the mutated message. -/
def chat_message.decode_header (m : chat_message) : Bool × chat_message :=
  let v := parsedHeaderValue m.hdr
  if v > max_body_length then (false, { m with body_length_ := 0 })
  else (true, { m with body_length_ := v })

/-- The member `chat_message::encode_header`: prints `body_length_` with
`sprintf "%4d"` into a local buffer and copies `header_length` bytes of it
into the front of `data_`. -/
def chat_message.encode_header (m : chat_message) : chat_message :=
  { m with hdr := (sprintf4 m.body_length_).take header_length }

/-!
The broadcast registry. `chat_room` holds `participants_`
(a `std::set` of sessions, modelled by a `Finset` of session identifiers)
and `recent_msgs_` (a `std::deque`, modelled by a list, front first).
Each `chat_session` owns a `write_msgs_` queue; `chat_session::deliver`
appends to it. The registry state below carries the room together with
every session's write queue, since `chat_room::join` and
`chat_room::deliver` call `chat_session::deliver` on members.
-/

/-- Session identity: one `shared_ptr<chat_participant>` per session. -/
abbrev SessionId := Nat

/-- The `chat_room` plus the `write_msgs_` queue of every session it can
reach through its `participants_` pointers. -/
structure RoomState where
  participants_ : Finset SessionId
  recent_msgs_ : List chat_message
  write_msgs_ : SessionId → List chat_message

/-- Bound `chat_room::max_recent_msgs` on the replay history. -/
def max_recent_msgs : Nat := 100

/-- The `while (recent_msgs_.size() > max_recent_msgs) recent_msgs_.pop_front()`
loop of `chat_room::deliver`. Each iteration removes one element, so
`l.length` steps of fuel always suffice. -/
def evictFuel : Nat → List chat_message → List chat_message
  | 0, l => l
  | fuel + 1, l => if l.length > max_recent_msgs then evictFuel fuel l.tail else l

/-- Result of the eviction while-loop on `recent_msgs_`. -/
def evictLoop (l : List chat_message) : List chat_message := evictFuel l.length l

/-- `chat_room::join`: inserts the participant into `participants_`, then
calls `participant->deliver(msg)` on each stored recent message in order,
which appends each one to that participant's `write_msgs_` queue. -/
def room_join (participant : SessionId) (st : RoomState) : RoomState :=
  { st with
    participants_ := insert participant st.participants_,
    write_msgs_ := fun t =>
      if t = participant then
        st.recent_msgs_.foldl (fun q msg => q ++ [msg]) (st.write_msgs_ t)
      else st.write_msgs_ t }

/-- `chat_room::leave`: erases the participant from `participants_`. -/
def room_leave (participant : SessionId) (st : RoomState) : RoomState :=
  { st with participants_ := st.participants_.erase participant }

/-- `chat_room::deliver`: pushes the message onto `recent_msgs_`, pops from
the front while over capacity, then calls `participant->deliver(msg)` on
every member of `participants_`, appending the message to each member's
`write_msgs_` queue exactly once. -/
def room_deliver (msg : chat_message) (st : RoomState) : RoomState :=
  { st with
    recent_msgs_ := evictLoop (st.recent_msgs_ ++ [msg]),
    write_msgs_ := fun t =>
      if t ∈ st.participants_ then st.write_msgs_ t ++ [msg] else st.write_msgs_ t }

/-- Iterated `chat_room::deliver` over a list of messages. -/
def deliverAll (msgs : List chat_message) (st : RoomState) : RoomState :=
  msgs.foldl (fun s m => room_deliver m s) st

/-- A fresh `chat_room` with no members, no history, and all queues empty. -/
def initRoom : RoomState := ⟨∅, [], fun _ => []⟩

/-- What the completion handler of `chat_session::do_read_header` decides to
do next: call `do_read_body`, or leave the room (tearing the session down). -/
inductive SessionAction where
  | readBody
  | leaveRoom
deriving DecidableEq

/-- The completion handler installed by `chat_session::do_read_header`: on a
transport error, or when `decode_header` rejects the header, the session
calls `room_.leave(shared_from_this())`; otherwise it proceeds to
`do_read_body`. `ec = true` models a nonzero `error_code`. Returns the action
taken, the session's `read_msg_` afterwards, and the registry afterwards. -/
def handle_read_header (ec : Bool) (s : SessionId) (m : chat_message) (st : RoomState) :
    SessionAction × chat_message × RoomState :=
  if ec then (.leaveRoom, m, room_leave s st)
  else
    let r := m.decode_header
    if r.1 then (.readBody, r.2, st) else (.leaveRoom, r.2, room_leave s st)

/-!
The write side of one `chat_session`, as a transition system. Events are
the two entry points that touch `write_msgs_`: a call to
`chat_session::deliver` from the room's fan-out, and the completion of the
`async_write` started by `do_write`. `outstanding` counts the `async_write`
operations in flight; `wire` records the frames handed to the transport, in
order. A transport error in the completion handler tears the session down
and starts no further write, so the error path is outside this machine. -/
inductive WEvent where
  | deliver (m : chat_message)
  | writeComplete

/-- Write-side state of one session: its `write_msgs_` queue, the number of
`async_write` operations in flight, and the frames written so far. -/
structure WriteState where
  write_msgs_ : List chat_message
  outstanding : Nat
  wire : List chat_message

/-- Write side of a fresh session: empty queue, no write in flight. -/
def winit : WriteState := ⟨[], 0, []⟩

/-- One step of the write side. `deliver` is `chat_session::deliver`: it
records whether a write was in progress (queue nonempty), pushes the message,
and calls `do_write` (starting one `async_write`) only if none was.
`writeComplete` is the completion handler in `chat_session::do_write`: the
front message has been written, it is popped, and if the queue is still
nonempty `do_write` is called again. A completion with an empty queue
corresponds to no started write and leaves the state unchanged. -/
def wstep (st : WriteState) : WEvent → WriteState
  | .deliver m =>
    let write_in_progress := !st.write_msgs_.isEmpty
    if write_in_progress then { st with write_msgs_ := st.write_msgs_ ++ [m] }
    else { st with write_msgs_ := st.write_msgs_ ++ [m], outstanding := st.outstanding + 1 }
  | .writeComplete =>
    match st.write_msgs_ with
    | [] => st
    | m :: rest =>
      let st' : WriteState := ⟨rest, st.outstanding - 1, st.wire ++ [m]⟩
      if rest.isEmpty then st' else { st' with outstanding := st'.outstanding + 1 }

/-- The write side after a sequence of events, starting from a fresh session. -/
def wrun (evs : List WEvent) : WriteState := evs.foldl wstep winit

/-- The messages enqueued by the `deliver` events of a trace, in order. -/
def deliveredMsgs : List WEvent → List chat_message
  | [] => []
  | .deliver m :: evs => m :: deliveredMsgs evs
  | .writeComplete :: evs => deliveredMsgs evs

/-- Bytes of the frame `do_write` hands to `async_write` for a message:
`length()` bytes from `data()`, i.e. the header followed by `body_length_`
body bytes. -/
def frame_bytes (m : chat_message) : List Nat :=
  m.hdr.take header_length ++ m.bodyData.take m.body_length_

/-!
Helper lemmas.
-/

/-- Folding queue-append over a list appends the whole list. -/
theorem foldl_concat_eq_append {α : Type} (l : List α) :
    ∀ init : List α, l.foldl (fun q x => q ++ [x]) init = init ++ l := by
  induction l with
  | nil => intro init; simp
  | cons a l ih => intro init; simp [ih]

/-- Setting the body length stores the minimum of the request and the cap. -/
theorem body_length_set_eq (m : chat_message) (L : Nat) :
    m.body_length_set L = { m with body_length_ := min L max_body_length } := by
  unfold chat_message.body_length_set
  by_cases h : L > max_body_length
  · simp only [h, if_pos]
    have : min L max_body_length = max_body_length := by omega
    rw [this]
  · simp only [h, if_neg, ite_false]
    have : min L max_body_length = L := by omega
    rw [this]

set_option maxRecDepth 4000 in
/-- Decoding the 4 header bytes produced by the encoder recovers every legal
body length. -/
theorem headerRound :
    ∀ i : Fin 513, parsedHeaderValue ((sprintf4 i.val).take header_length) = i.val := by
  decide

/-- With enough fuel, the eviction loop keeps exactly the last
`max_recent_msgs` entries (all of them when under the bound). -/
theorem evictFuel_eq : ∀ (fuel : Nat) (l : List chat_message),
    l.length - max_recent_msgs ≤ fuel →
    evictFuel fuel l = l.drop (l.length - max_recent_msgs) := by
  intro fuel
  induction fuel with
  | zero =>
    intro l h
    have h0 : l.length - max_recent_msgs = 0 := Nat.le_zero.mp h
    simp [evictFuel, h0]
  | succ n ih =>
    intro l h
    by_cases hl : l.length > max_recent_msgs
    · rw [evictFuel, if_pos hl]
      cases l with
      | nil => simp at hl
      | cons a l' =>
        rw [List.tail_cons] at *
        rw [ih l' (by simp at h ⊢; omega)]
        have hk : (a :: l').length - max_recent_msgs = (l'.length - max_recent_msgs) + 1 := by
          simp at hl ⊢; omega
        rw [hk, List.drop_succ_cons]
    · rw [evictFuel, if_neg hl]
      have h0 : l.length - max_recent_msgs = 0 := by omega
      simp [h0]

/-- The eviction loop of `chat_room::deliver` keeps exactly the last
`max_recent_msgs` entries. -/
theorem evictLoop_eq (l : List chat_message) :
    evictLoop l = l.drop (l.length - max_recent_msgs) :=
  evictFuel_eq l.length l (by omega)

/-- Keeping the last `max_recent_msgs` entries, appending, and keeping the
last `max_recent_msgs` entries again is the same as doing it once at the end. -/
theorem drop_last_append (A rest : List chat_message) :
    (A.drop (A.length - max_recent_msgs) ++ rest).drop
        ((A.drop (A.length - max_recent_msgs) ++ rest).length - max_recent_msgs) =
      (A ++ rest).drop ((A ++ rest).length - max_recent_msgs) := by
  have hk : A.length - max_recent_msgs ≤ A.length := by omega
  rw [← List.drop_append_of_le_length hk, List.drop_drop, List.length_drop]
  have hj : (A.length - max_recent_msgs) +
        ((A ++ rest).length - (A.length - max_recent_msgs) - max_recent_msgs) =
      (A ++ rest).length - max_recent_msgs := by
    simp only [List.length_append]
    omega
  rw [hj]

/-- The element just appended at the back survives any front drop that keeps
at least one entry. -/
theorem mem_drop_concat : ∀ (k : Nat) (l : List chat_message) (m : chat_message),
    k ≤ l.length → m ∈ (l ++ [m]).drop k := by
  intro k
  induction k with
  | zero => intro l m _; simp
  | succ n ih =>
    intro l m hk
    cases l with
    | nil => simp at hk
    | cons a l' =>
      rw [List.cons_append, List.drop_succ_cons]
      exact ih l' m (by simpa using hk)

/-- Running `chat_room::deliver` over a list of messages from a state whose
history is within bound leaves as history exactly the last `max_recent_msgs`
entries of the old history followed by the delivered messages. -/
theorem deliverAll_recent : ∀ (msgs : List chat_message) (st : RoomState),
    st.recent_msgs_.length ≤ max_recent_msgs →
    (deliverAll msgs st).recent_msgs_ =
      (st.recent_msgs_ ++ msgs).drop ((st.recent_msgs_ ++ msgs).length - max_recent_msgs) := by
  intro msgs
  induction msgs with
  | nil =>
    intro st h
    have h0 : st.recent_msgs_.length - max_recent_msgs = 0 := by omega
    simp [deliverAll, h0]
  | cons m rest ih =>
    intro st h
    have hstep : deliverAll (m :: rest) st = deliverAll rest (room_deliver m st) := rfl
    have hrec : (room_deliver m st).recent_msgs_ =
        (st.recent_msgs_ ++ [m]).drop ((st.recent_msgs_ ++ [m]).length - max_recent_msgs) := by
      simp [room_deliver, evictLoop_eq]
    have hlen : (room_deliver m st).recent_msgs_.length ≤ max_recent_msgs := by
      rw [hrec, List.length_drop]
      omega
    rw [hstep, ih _ hlen, hrec]
    have := drop_last_append (st.recent_msgs_ ++ [m]) rest
    simpa [List.append_assoc] using this

/-- Invariant of the write side relating the state to the multiset of
messages delivered so far: the outstanding-operation count is 1 exactly when
the queue is nonempty, and the wire output followed by the queued backlog is
the full delivered sequence in order. -/
def WInv (st : WriteState) (D : List chat_message) : Prop :=
  st.outstanding = (if st.write_msgs_.isEmpty then 0 else 1) ∧
  st.wire ++ st.write_msgs_ = D

/-- A `chat_session::deliver` call preserves the write-side invariant,
extending the delivered sequence. -/
theorem wstep_deliver_inv (st : WriteState) (D : List chat_message) (m : chat_message)
    (h : WInv st D) : WInv (wstep st (.deliver m)) (D ++ [m]) := by
  obtain ⟨h1, h2⟩ := h
  cases hq : st.write_msgs_ with
  | nil =>
    rw [hq] at h1 h2
    simp at h1
    constructor
    · simp [wstep, hq, h1]
    · simp [wstep, hq]
      simpa using h2
  | cons q qs =>
    rw [hq] at h1 h2
    simp at h1
    constructor
    · simp [wstep, hq, h1]
    · simp [wstep, hq, ← h2]

/-- A successful `async_write` completion preserves the write-side invariant
with the same delivered sequence. -/
theorem wstep_complete_inv (st : WriteState) (D : List chat_message)
    (h : WInv st D) : WInv (wstep st .writeComplete) D := by
  obtain ⟨h1, h2⟩ := h
  cases hq : st.write_msgs_ with
  | nil =>
    constructor
    · simp [wstep, hq]
      rw [hq] at h1
      simpa using h1
    · simp [wstep, hq]
      rw [hq] at h2
      simpa using h2
  | cons q qs =>
    rw [hq] at h1 h2
    simp at h1
    cases qs with
    | nil =>
      constructor
      · simp [wstep, hq, h1]
      · simp [wstep, hq]
        simpa using h2
    | cons q' qs' =>
      constructor
      · simp [wstep, hq, h1]
      · simp [wstep, hq, ← h2]

/-- The write-side invariant holds after any event trace. -/
theorem wrun_inv : ∀ (evs : List WEvent) (st : WriteState) (D : List chat_message),
    WInv st D → WInv (evs.foldl wstep st) (D ++ deliveredMsgs evs) := by
  intro evs
  induction evs with
  | nil => intro st D h; simpa [deliveredMsgs] using h
  | cons e evs ih =>
    intro st D h
    cases e with
    | deliver m =>
      have step := wstep_deliver_inv st D m h
      have := ih (wstep st (.deliver m)) (D ++ [m]) step
      simpa [deliveredMsgs, List.append_assoc] using this
    | writeComplete =>
      have step := wstep_complete_inv st D h
      have := ih (wstep st .writeComplete) D step
      simpa [deliveredMsgs] using this

/-- The sending path of the client main loop (chat_client.cpp): set the body
length from the input line, `memcpy` the first `body_length()` bytes of the
line into the body region, and call `encode_header`. -/
def make_frame (m : chat_message) (line : List Nat) : chat_message :=
  let m1 := m.body_length_set line.length
  let m2 : chat_message :=
    { m1 with bodyData := line.take m1.body_length_ ++ m1.bodyData.drop m1.body_length_ }
  m2.encode_header

/-- A message with a given tag in `body_length_`, used as concrete test data. -/
def mkMsg (i : Nat) : chat_message := ⟨[], [], i⟩

/-- Concrete list of distinct test messages. -/
def mkMsgs (n : Nat) : List chat_message := (List.range n).map mkMsg

/-- Concrete registry with two joined sessions and empty queues. -/
def stC : RoomState := ⟨{0, 1}, [], fun _ => []⟩

/-- Concrete registry with one joined session and one stored message. -/
def stJ : RoomState := ⟨{1}, [mkMsg 7], fun _ => []⟩

/-- Concrete registry with one joined session and no history. -/
def stL : RoomState := ⟨{1}, [], fun _ => []⟩

/-!
The claims.
-/

/-- C7: decoded-message length invariant. For every header content,
`decode_header` either succeeds with a stored body length of at most
`max_body_length`, or fails with the stored body length reset to 0; no
decode ever leaves a length above `max_body_length`. -/
theorem decode_header_length_invariant (m : chat_message) :
    ((m.decode_header).1 = true ∧ (m.decode_header).2.body_length_ ≤ max_body_length) ∨
    ((m.decode_header).1 = false ∧ (m.decode_header).2.body_length_ = 0) := by
  unfold chat_message.decode_header
  by_cases h : parsedHeaderValue m.hdr > max_body_length
  · right
    simp [h]
  · left
    simp [h]
    omega

/-- C8: silent truncation on encode. Setting the body length to any requested
value `L` stores exactly `min L max_body_length`; an oversized request is
capped at `max_body_length` with no error reported. -/
theorem body_length_truncation (m : chat_message) (L : Nat) :
    (m.body_length_set L).body_length_ = min L max_body_length := by
  rw [body_length_set_eq]

/-- C1: encode/decode round-trip. For every message buffer and every body of
length at most `max_body_length`, setting the body length, copying the body
bytes into the body region, and calling `encode_header` produces a frame
whose header `decode_header` accepts, recovering exactly the original body
length and the original body bytes. -/
theorem encode_decode_roundtrip (m : chat_message) (bs : List Nat)
    (h : bs.length ≤ max_body_length) :
    ((make_frame m bs).decode_header).1 = true ∧
    ((make_frame m bs).decode_header).2.body_length_ = bs.length ∧
    ((make_frame m bs).decode_header).2.bodyData.take
        (((make_frame m bs).decode_header).2.body_length_) = bs := by
  obtain ⟨hd, bd, bl⟩ := m
  have h512 : bs.length ≤ 512 := by
    have hmb : max_body_length = 512 := rfl
    omega
  have hnot : ¬ (bs.length > max_body_length) := Nat.not_lt.mpr h
  have hv : parsedHeaderValue ((sprintf4 bs.length).take header_length) = bs.length :=
    headerRound ⟨bs.length, by omega⟩
  have hframe : make_frame (chat_message.mk hd bd bl) bs =
      chat_message.mk ((sprintf4 bs.length).take header_length)
        (bs ++ bd.drop bs.length) bs.length := by
    simp [make_frame, chat_message.body_length_set, hnot, chat_message.encode_header]
  rw [hframe]
  have hdec : (chat_message.mk ((sprintf4 bs.length).take header_length)
      (bs ++ bd.drop bs.length) bs.length).decode_header =
      (true, chat_message.mk ((sprintf4 bs.length).take header_length)
        (bs ++ bd.drop bs.length) bs.length) := by
    simp [chat_message.decode_header, hv, hnot]
  rw [hdec]
  refine ⟨rfl, rfl, ?_⟩
  exact List.take_left' rfl

/-- C1 witness: the round-trip at the concrete two-byte body "hi". -/
theorem encode_decode_roundtrip_witness :
    ([104, 105] : List Nat).length ≤ max_body_length ∧
    (((make_frame (chat_message.mk [0, 0, 0, 0] [] 0) [104, 105]).decode_header).1 = true ∧
     ((make_frame (chat_message.mk [0, 0, 0, 0] [] 0) [104, 105]).decode_header).2.body_length_ =
       ([104, 105] : List Nat).length ∧
     ((make_frame (chat_message.mk [0, 0, 0, 0] [] 0) [104, 105]).decode_header).2.bodyData.take
        (((make_frame (chat_message.mk [0, 0, 0, 0] [] 0) [104, 105]).decode_header).2.body_length_) =
       [104, 105]) :=
  ⟨by decide, encode_decode_roundtrip (chat_message.mk [0, 0, 0, 0] [] 0) [104, 105] (by decide)⟩

/-- C2: oversized rejection. Whenever the parsed decimal value of a header
exceeds `max_body_length`, `decode_header` returns false with the stored
length reset to 0, and the header-read completion handler reacts by leaving
the room rather than reading a body, so the session is no longer registered. -/
theorem oversized_header_rejected (s : SessionId) (st : RoomState) (m : chat_message)
    (h : parsedHeaderValue m.hdr > max_body_length) :
    m.decode_header = (false, { m with body_length_ := 0 }) ∧
    handle_read_header false s m st =
      (SessionAction.leaveRoom, { m with body_length_ := 0 }, room_leave s st) ∧
    s ∉ (room_leave s st).participants_ := by
  have hd : m.decode_header = (false, { m with body_length_ := 0 }) := by
    simp [chat_message.decode_header, h]
  refine ⟨hd, ?_, ?_⟩
  · simp [handle_read_header, hd]
  · simp [room_leave]

/-- C2 witness: the header "9999" parses to 9999, is rejected, and the
handling session leaves the (fresh, then joined) registry. -/
theorem oversized_header_rejected_witness :
    parsedHeaderValue (chat_message.mk [57, 57, 57, 57] [] 0).hdr > max_body_length ∧
    ((chat_message.mk [57, 57, 57, 57] [] 0).decode_header =
      (false, { chat_message.mk [57, 57, 57, 57] [] 0 with body_length_ := 0 }) ∧
     handle_read_header false 0 (chat_message.mk [57, 57, 57, 57] [] 0) stL =
      (SessionAction.leaveRoom, { chat_message.mk [57, 57, 57, 57] [] 0 with body_length_ := 0 },
        room_leave 0 stL) ∧
     (0 : SessionId) ∉ (room_leave 0 stL).participants_) :=
  ⟨by decide, oversized_header_rejected 0 stL (chat_message.mk [57, 57, 57, 57] [] 0) (by decide)⟩

/-- C3: fan-out completeness. One `chat_room::deliver` call appends the
message once to the write queue of every member of `participants_` (the
delivering session being a member receives its own message too) and leaves
every other session's queue untouched; for members the occurrence count of
the message grows by exactly one. -/
theorem fanout_exactly_once (st : RoomState) (m : chat_message) (s : SessionId) :
    ((room_deliver m st).write_msgs_ s =
      if s ∈ st.participants_ then st.write_msgs_ s ++ [m] else st.write_msgs_ s) ∧
    (s ∈ st.participants_ →
      ((room_deliver m st).write_msgs_ s).count m = ((st.write_msgs_ s).count m) + 1) := by
  constructor
  · rfl
  · intro hs
    simp [room_deliver, hs]

/-- C3 witness: delivering a message to a two-member registry appends it
exactly once for member 0. -/
theorem fanout_exactly_once_witness :
    (0 : SessionId) ∈ stC.participants_ ∧
    (room_deliver (mkMsg 5) stC).write_msgs_ 0 = stC.write_msgs_ 0 ++ [mkMsg 5] ∧
    ((room_deliver (mkMsg 5) stC).write_msgs_ 0).count (mkMsg 5) =
      ((stC.write_msgs_ 0).count (mkMsg 5)) + 1 := by
  obtain ⟨h1, h2⟩ := fanout_exactly_once stC (mkMsg 5) 0
  have h0 : (0 : SessionId) ∈ stC.participants_ := by decide
  refine ⟨h0, ?_, h2 h0⟩
  rw [h1, if_pos h0]

/-- C4: join replay completeness and order. `chat_room::join` adds the
session to the membership set, appends exactly the stored history to that
session's queue in original order, touches no other queue, and a message
delivered after the join lands behind the replayed history. -/
theorem join_replay (s : SessionId) (st : RoomState)
    (_hk : st.recent_msgs_.length ≤ max_recent_msgs) :
    (room_join s st).participants_ = insert s st.participants_ ∧
    (room_join s st).write_msgs_ s = st.write_msgs_ s ++ st.recent_msgs_ ∧
    (∀ t, t ≠ s → (room_join s st).write_msgs_ t = st.write_msgs_ t) ∧
    (∀ m, (room_deliver m (room_join s st)).write_msgs_ s =
      st.write_msgs_ s ++ st.recent_msgs_ ++ [m]) := by
  refine ⟨rfl, ?_, ?_, ?_⟩
  · simp [room_join, foldl_concat_eq_append]
  · intro t ht
    simp [room_join, ht]
  · intro m
    have hs : s ∈ (room_join s st).participants_ := by simp [room_join]
    simp [room_deliver, hs, room_join, foldl_concat_eq_append]

/-- C4 witness: joining a registry holding one stored message replays exactly
that message, and a later delivery arrives after it. -/
theorem join_replay_witness :
    stJ.recent_msgs_.length ≤ max_recent_msgs ∧
    (room_join 0 stJ).participants_ = insert 0 stJ.participants_ ∧
    (room_join 0 stJ).write_msgs_ 0 = stJ.write_msgs_ 0 ++ stJ.recent_msgs_ ∧
    (room_join 0 stJ).write_msgs_ 1 = stJ.write_msgs_ 1 ∧
    (room_deliver (mkMsg 9) (room_join 0 stJ)).write_msgs_ 0 =
      stJ.write_msgs_ 0 ++ stJ.recent_msgs_ ++ [mkMsg 9] := by
  obtain ⟨h1, h2, h3, h4⟩ := join_replay 0 stJ (by decide)
  exact ⟨by decide, h1, h2, h3 1 (by decide), h4 (mkMsg 9)⟩

/-- C5: history bound with FIFO eviction. Starting from an empty history,
any sequence of `chat_room::deliver` calls leaves in `recent_msgs_` exactly
the last `max_recent_msgs` delivered messages in delivery order (all of them
while at most `max_recent_msgs` have been delivered), and the history never
holds more than `max_recent_msgs` messages. -/
theorem history_bound (st : RoomState) (msgs : List chat_message)
    (h : st.recent_msgs_ = []) :
    (deliverAll msgs st).recent_msgs_ = msgs.drop (msgs.length - max_recent_msgs) ∧
    (deliverAll msgs st).recent_msgs_.length ≤ max_recent_msgs := by
  have hgen := deliverAll_recent msgs st (by simp [h])
  rw [h] at hgen
  simp at hgen
  refine ⟨hgen, ?_⟩
  rw [hgen, List.length_drop]
  omega

/-- C5 witness: delivering 150 distinct messages to a fresh registry leaves
exactly the last 100, i.e. the messages from index 50 on. -/
theorem history_bound_witness :
    initRoom.recent_msgs_ = [] ∧
    ((deliverAll (mkMsgs 150) initRoom).recent_msgs_ =
      (mkMsgs 150).drop ((mkMsgs 150).length - max_recent_msgs) ∧
     (deliverAll (mkMsgs 150) initRoom).recent_msgs_.length ≤ max_recent_msgs) :=
  ⟨rfl, history_bound initRoom (mkMsgs 150) rfl⟩

/-- C9: leave idempotence. `chat_room::leave` removes the session from the
membership set if present (afterwards it is never a member, every other
member is untouched, and the history and queues are unchanged), is a no-op
when the session is absent, and a second leave changes nothing. -/
theorem leave_idempotent (s : SessionId) (st : RoomState) :
    s ∉ (room_leave s st).participants_ ∧
    (∀ t, t ≠ s → (t ∈ (room_leave s st).participants_ ↔ t ∈ st.participants_)) ∧
    (room_leave s st).recent_msgs_ = st.recent_msgs_ ∧
    (room_leave s st).write_msgs_ = st.write_msgs_ ∧
    room_leave s (room_leave s st) = room_leave s st ∧
    (s ∉ st.participants_ → room_leave s st = st) := by
  obtain ⟨p, r, w⟩ := st
  refine ⟨?_, ?_, rfl, rfl, ?_, ?_⟩
  · simp [room_leave]
  · intro t ht
    simp [room_leave, Finset.mem_erase, ht]
  · simp [room_leave, Finset.erase_idem]
  · intro hs
    simp [room_leave]
    exact hs

/-- C9 witness: leaving removes the present member 1 (who is then no longer a
member) while member 2's absence status is unchanged, double leave equals
single leave, and leaving with 0 absent is the identity on the registry. -/
theorem leave_idempotent_witness :
    (1 : SessionId) ∈ stL.participants_ ∧
    (1 : SessionId) ∉ (room_leave 1 stL).participants_ ∧
    ((2 : SessionId) ∈ (room_leave 1 stL).participants_ ↔ (2 : SessionId) ∈ stL.participants_) ∧
    room_leave 1 (room_leave 1 stL) = room_leave 1 stL ∧
    (0 : SessionId) ∉ stL.participants_ ∧
    room_leave 0 stL = stL := by
  obtain ⟨ha1, ha2, _, _, ha5, _⟩ := leave_idempotent 1 stL
  obtain ⟨_, _, _, _, _, hb6⟩ := leave_idempotent 0 stL
  have h0 : (0 : SessionId) ∉ stL.participants_ := by decide
  exact ⟨by decide, ha1, ha2 2 (by decide), ha5, h0, hb6 h0⟩

/-- C10: delivery to an empty room still enters the history. Delivering a
message while no session is registered changes no write queue, yet stores the
message in `recent_msgs_`, and a session joining afterwards receives it in
the replay. -/
theorem empty_room_deliver_history (st : RoomState) (m : chat_message) (s : SessionId)
    (h : st.participants_ = ∅) :
    (∀ t, (room_deliver m st).write_msgs_ t = st.write_msgs_ t) ∧
    m ∈ (room_deliver m st).recent_msgs_ ∧
    m ∈ (room_join s (room_deliver m st)).write_msgs_ s := by
  have hmem : m ∈ (room_deliver m st).recent_msgs_ := by
    have hshape : (room_deliver m st).recent_msgs_ =
        (st.recent_msgs_ ++ [m]).drop ((st.recent_msgs_ ++ [m]).length - max_recent_msgs) := by
      simp [room_deliver, evictLoop_eq]
    rw [hshape]
    apply mem_drop_concat
    simp [max_recent_msgs]
  refine ⟨?_, hmem, ?_⟩
  · intro t
    simp [room_deliver, h]
  · simp [room_join, foldl_concat_eq_append, hmem]

/-- C10 witness: a message delivered to the fresh empty registry reaches the
replay of a session that joins afterwards, although no queue saw it. -/
theorem empty_room_deliver_history_witness :
    initRoom.participants_ = ∅ ∧
    (room_deliver (mkMsg 3) initRoom).write_msgs_ 5 = initRoom.write_msgs_ 5 ∧
    mkMsg 3 ∈ (room_deliver (mkMsg 3) initRoom).recent_msgs_ ∧
    mkMsg 3 ∈ (room_join 4 (room_deliver (mkMsg 3) initRoom)).write_msgs_ 4 := by
  obtain ⟨h1, h2, h3⟩ := empty_room_deliver_history initRoom (mkMsg 3) 4 rfl
  exact ⟨rfl, h1 5, h2, h3⟩

/-- C6: per-session write ordering and single outstanding write. After any
trace of enqueue and write-completion events on one session's write side,
at most one `async_write` is in flight, and the frames on the wire followed
by the still-queued backlog are exactly the enqueued messages in FIFO order
(so the wire always carries a prefix of the enqueued sequence, as frames). -/
theorem single_outstanding_write_fifo (evs : List WEvent) :
    (wrun evs).outstanding ≤ 1 ∧
    (wrun evs).wire ++ (wrun evs).write_msgs_ = deliveredMsgs evs ∧
    (wrun evs).wire.map frame_bytes ++ (wrun evs).write_msgs_.map frame_bytes =
      (deliveredMsgs evs).map frame_bytes := by
  have h := wrun_inv evs winit [] ⟨rfl, rfl⟩
  obtain ⟨h1, h2⟩ := h
  simp only [List.nil_append] at h2
  have hw : wrun evs = List.foldl wstep winit evs := rfl
  rw [hw]
  refine ⟨?_, h2, ?_⟩
  · rw [h1]
    split <;> omega
  · rw [← List.map_append, h2]
